import Mathlib

/-!
Verification of the bitboard Othello engine (`board.rs`, `ai.rs`, `player.rs`)
via a shallow embedding in Lean 4.

Machine integers are modelled as `Nat` (for the `u64` bitboards, all masks stay
below `2 ^ 64` because every bit written is `1 <<< p` with `p < 64`) and `Int`
(for the `i32` scores; the engine's only overflow risk, negating `i32::MIN`, is
handled by `safe_neg` exactly as in the source).  Rust's `!x` on `u64` is
modelled as `x ^^^ 0xffffffffffffffff`.
-/

set_option maxRecDepth 10000

namespace BitOthello

/-- The two players, from `player.rs`.  `player_u8` below gives the Rust
discriminants (`player as u8`). -/
inductive Player where
  | Black
  | White
deriving DecidableEq, Repr

/-- Embedding of `Player::opponent` from `player.rs`. -/
def Player.opponent : Player → Player
  | .Black => .White
  | .White => .Black

/-- The Rust enum discriminant used in the transposition-table key
(`player as u8`): `Black = 0`, `White = 1`. -/
def player_u8 : Player → Nat
  | .Black => 0
  | .White => 1

/-- The bitboard from `board.rs`: two `u64` occupancy masks. -/
structure BitBoard where
  black : Nat
  white : Nat
deriving DecidableEq, Repr

/-- Embedding of `DEFAULT_BLACK` from `board.rs`. -/
def DEFAULT_BLACK : Nat := 0x0000000810000000

/-- Embedding of `DEFAULT_WHITE` from `board.rs`. -/
def DEFAULT_WHITE : Nat := 0x0000001008000000

/-- Embedding of `BitBoard::new` from `board.rs`. -/
def BitBoard.new : BitBoard := ⟨DEFAULT_BLACK, DEFAULT_WHITE⟩

/-- All 64 bits set; Rust's `!0u64`, and the mask through which `!x` on `u64`
is modelled (`u64_not`). -/
def U64_ALL : Nat := 0xffffffffffffffff

/-- Rust's bitwise complement `!x` on `u64` (for `x < 2 ^ 64`). -/
def u64_not (x : Nat) : Nat := U64_ALL ^^^ x

/-- The mover's mask: the `my` component of the
`let (my, opp) = match player ...` pattern used throughout `board.rs`. -/
def mover_mask (b : BitBoard) : Player → Nat
  | .Black => b.black
  | .White => b.white

/-- The opponent's mask: the `opp` component of the same pattern. -/
def opp_mask (b : BitBoard) : Player → Nat
  | .Black => b.white
  | .White => b.black

/-- The direction list of `compute_flips` in `board.rs`, in source order. -/
def directions : List (Int × Int) :=
  [(-1, -1), (-1, 0), (-1, 1), (0, -1), (0, 1), (1, -1), (1, 0), (1, 1)]

/-- The in-bounds cells visited by the `while r >= 0 && r < 8 && c >= 0 && c < 8`
loop of `compute_flips`, starting at `(r, c)` and stepping by `(dr, dc)`,
encoded as `r * 8 + c`.  A ray holds at most 8 cells, so fuel 8 is exact. -/
def rayPositions : Nat → Int → Int → Int → Int → List Nat
  | 0, _, _, _, _ => []
  | fuel + 1, r, c, dr, dc =>
    if 0 ≤ r ∧ r < 8 ∧ 0 ≤ c ∧ c < 8 then
      (r * 8 + c).toNat :: rayPositions fuel (r + dr) (c + dc) dr dc
    else []

/-- The body of `compute_flips`' per-direction loop in `board.rs`: walk the ray,
accumulate opponent discs into `dirFlips`, contribute them when a disc of the
mover terminates the run, contribute nothing on an empty cell or at the edge. -/
def scanRay (my opp : Nat) : List Nat → Nat → Bool → Nat
  | [], _, _ => 0
  | p :: rest, dirFlips, foundOpp =>
    if opp &&& (1 <<< p) ≠ 0 then
      scanRay my opp rest (dirFlips ||| (1 <<< p)) true
    else if my &&& (1 <<< p) ≠ 0 then
      (if foundOpp then dirFlips else 0)
    else 0

/-- Embedding of `BitBoard::compute_flips` from `board.rs`: union over the 8 directions of
the per-direction contribution. -/
def BitBoard.compute_flips (b : BitBoard) (pos : Nat) (player : Player) : Nat :=
  let my := mover_mask b player
  let opp := opp_mask b player
  let row : Int := (pos / 8 : Nat)
  let col : Int := (pos % 8 : Nat)
  directions.foldl
    (fun flips d =>
      flips ||| scanRay my opp (rayPositions 8 (row + d.1) (col + d.2) d.1 d.2) 0 false)
    0

/-- Embedding of `BitBoard::make_move` from `board.rs`.  The Rust method mutates `self` and
returns `bool`; here it returns the flag together with the resulting board. -/
def BitBoard.make_move (b : BitBoard) (pos : Nat) (player : Player) : Bool × BitBoard :=
  let pos_bit := 1 <<< pos
  if (b.black ||| b.white) &&& pos_bit ≠ 0 then (false, b)
  else
    let flips := b.compute_flips pos player
    if flips = 0 then (false, b)
    else
      match player with
      | .Black => (true, ⟨b.black ||| (pos_bit ||| flips), b.white &&& u64_not flips⟩)
      | .White => (true, ⟨b.black &&& u64_not flips, b.white ||| (pos_bit ||| flips)⟩)

/-- The `SHIFTS` table of `board.rs`: `(shift, mask, is_forward)` triples
(the Rust literals `0xfefefefefefe00` and `0x00fefefefefefefefe` denote
`0x00fefefefefefe00` and `0xfefefefefefefefe` as `u64` values). -/
def SHIFTS : List (Nat × Nat × Bool) :=
  [(1, 0x7f7f7f7f7f7f7f7f, false),
   (1, 0xfefefefefefefefe, true),
   (8, 0xffffffffffffff00, false),
   (8, 0x00ffffffffffffff, true),
   (9, 0x7f7f7f7f7f7f7f00, false),
   (7, 0x00fefefefefefe00, false),
   (7, 0x007f7f7f7f7f7f7f, true),
   (9, 0xfefefefefefefefe, true)]

/-- Embedding of `BitBoard::get_adjacent_mask` from `board.rs` (it reads no board state).
The Rust `<<` on `u64` truncates to 64 bits; the `&` with a sub-`2^64` mask
performs that truncation here. -/
def get_adjacent_mask (pos : Nat) : Nat :=
  SHIFTS.foldl
    (fun mask s =>
      if s.2.2 then mask ||| (((1 <<< pos) <<< s.1) &&& s.2.1)
      else mask ||| (((1 <<< pos) >>> s.1) &&& s.2.1))
    0

/-- Embedding of `BitBoard::is_legal_move` from `board.rs`: occupied check, adjacency
pre-filter, then the full flip computation. -/
def BitBoard.is_legal_move (b : BitBoard) (pos : Nat) (player : Player) : Bool :=
  if (b.black ||| b.white) &&& (1 <<< pos) ≠ 0 then false
  else
    if get_adjacent_mask pos &&& opp_mask b player = 0 then false
    else decide (b.compute_flips pos player ≠ 0)

/-- Embedding of `BitBoard::get_legal_moves` from `board.rs`: scan positions `0..64`,
skip occupied squares, set the bit when `compute_flips` is non-zero. -/
def BitBoard.get_legal_moves (b : BitBoard) (player : Player) : Nat :=
  (List.range 64).foldl
    (fun legal_moves pos =>
      if (b.black ||| b.white) &&& (1 <<< pos) ≠ 0 then legal_moves
      else if b.compute_flips pos player ≠ 0 then legal_moves ||| (1 <<< pos)
      else legal_moves)
    0

/-- Embedding of `u64::count_ones` for the 64-bit values of this program. -/
def popcount64 (x : Nat) : Nat := (List.range 64).countP (fun i => x.testBit i)

/-- Embedding of `BitBoard::count_discs` from `board.rs`. -/
def BitBoard.count_discs (b : BitBoard) (player : Player) : Nat :=
  popcount64 (mover_mask b player)

/-- The `64 - (self.black | self.white).count_ones()` empty-square count used
throughout `ai.rs`. -/
def BitBoard.empty_count (b : BitBoard) : Nat := 64 - popcount64 (b.black ||| b.white)

/-- Embedding of `BitBoard::is_pass_required` from `board.rs`. -/
def BitBoard.is_pass_required (b : BitBoard) (player : Player) : Bool :=
  decide (b.get_legal_moves player = 0)

/-- Embedding of `BitBoard::is_game_over` from `board.rs`. -/
def BitBoard.is_game_over (b : BitBoard) : Bool :=
  if b.black ||| b.white = U64_ALL then true
  else decide (b.get_legal_moves .Black = 0) && decide (b.get_legal_moves .White = 0)

/-! ### Specification-side description of `compute_flips` (for claim C4) -/

/-- The bit set of a list of positions. -/
def runBits (l : List Nat) : Nat := l.foldl (fun a p => a ||| (1 <<< p)) 0

/-- The maximal initial run of contiguous opponent discs along a ray. -/
def oppRun (opp : Nat) (l : List Nat) : List Nat := l.takeWhile (fun p => opp.testBit p)

/-- Whether the opponent run of a ray is terminated by a disc of the moving
player (rather than by an empty square or the board edge). -/
def runTerminated (my opp : Nat) (l : List Nat) : Bool :=
  match l.dropWhile (fun p => opp.testBit p) with
  | [] => false
  | t :: _ => my.testBit t

/-- Modelled from the spec: the contribution of one direction, as the spec
describes it — the run of contiguous opponent discs, contributed exactly when
it is non-empty and terminated by a disc of the moving player. -/
def specDirFlips (my opp : Nat) (l : List Nat) : Nat :=
  if oppRun opp l ≠ [] ∧ runTerminated my opp l = true then runBits (oppRun opp l) else 0

lemma land_shift_ne_iff (x p : Nat) : (x &&& (1 <<< p) ≠ 0) ↔ x.testBit p = true := by
  rw [Nat.one_shiftLeft, Nat.and_two_pow]
  cases h : x.testBit p
  · simp
  · simp [(Nat.two_pow_pos p).ne']

lemma foldl_lor_shift (l : List Nat) (a : Nat) :
    l.foldl (fun x p => x ||| (1 <<< p)) a = a ||| runBits l := by
  induction l generalizing a with
  | nil => simp [runBits]
  | cons p rest ih =>
    simp only [runBits, List.foldl_cons, Nat.zero_or]
    rw [ih (a ||| (1 <<< p)), ih (1 <<< p), Nat.or_assoc]

lemma runBits_cons (p : Nat) (l : List Nat) :
    runBits (p :: l) = (1 <<< p) ||| runBits l := by
  simp only [runBits, List.foldl_cons, Nat.zero_or]
  rw [foldl_lor_shift]
  rfl

lemma scanRay_found (my opp : Nat) (l : List Nat) :
    ∀ acc, scanRay my opp l acc true =
      if runTerminated my opp l then acc ||| runBits (oppRun opp l) else 0 := by
  induction l with
  | nil => intro acc; simp [scanRay, runTerminated, oppRun]
  | cons p rest ih =>
    intro acc
    by_cases hopp : opp.testBit p
    · have h1 : (opp &&& (1 <<< p) ≠ 0) := (land_shift_ne_iff opp p).mpr hopp
      rw [scanRay, if_pos h1, ih]
      have hrt : runTerminated my opp (p :: rest) = runTerminated my opp rest := by
        simp [runTerminated, List.dropWhile_cons_of_pos hopp]
      have hor : oppRun opp (p :: rest) = p :: oppRun opp rest := by
        simp [oppRun, List.takeWhile_cons_of_pos hopp]
      rw [hrt, hor]
      by_cases ht : runTerminated my opp rest
      · rw [if_pos ht, if_pos ht, runBits_cons, ← Nat.or_assoc]
      · rw [if_neg ht, if_neg ht]
    · have h1 : ¬(opp &&& (1 <<< p) ≠ 0) := fun h => hopp ((land_shift_ne_iff opp p).mp h)
      have hor : oppRun opp (p :: rest) = [] := by
        simp [oppRun, List.takeWhile_cons_of_neg (by simpa using hopp)]
      have hrt : runTerminated my opp (p :: rest) = my.testBit p := by
        simp [runTerminated, List.dropWhile_cons_of_neg (by simpa using hopp)]
      rw [scanRay, if_neg h1]
      by_cases hmy : my.testBit p
      · have h2 : (my &&& (1 <<< p) ≠ 0) := (land_shift_ne_iff my p).mpr hmy
        rw [if_pos h2, hrt, hor]
        simp [hmy, runBits]
      · have h2 : ¬(my &&& (1 <<< p) ≠ 0) := fun h => hmy ((land_shift_ne_iff my p).mp h)
        rw [if_neg h2, hrt, hor]
        simp [hmy]

/-- The per-direction loop of `compute_flips` computes exactly the
spec-described contribution. -/
lemma scanRay_eq_specDirFlips (my opp : Nat) (l : List Nat) :
    scanRay my opp l 0 false = specDirFlips my opp l := by
  cases l with
  | nil => simp [scanRay, specDirFlips, oppRun]
  | cons p rest =>
    by_cases hopp : opp.testBit p
    · have h1 : (opp &&& (1 <<< p) ≠ 0) := (land_shift_ne_iff opp p).mpr hopp
      rw [scanRay, if_pos h1, scanRay_found]
      have hor : oppRun opp (p :: rest) = p :: oppRun opp rest := by
        simp [oppRun, List.takeWhile_cons_of_pos hopp]
      have hrt : runTerminated my opp (p :: rest) = runTerminated my opp rest := by
        simp [runTerminated, List.dropWhile_cons_of_pos hopp]
      rw [specDirFlips, hor, hrt]
      by_cases ht : runTerminated my opp rest
      · rw [if_pos ht, if_pos (by simp [ht]), runBits_cons, Nat.zero_or]
      · rw [if_neg ht, if_neg (by simp [ht])]
    · have h1 : ¬(opp &&& (1 <<< p) ≠ 0) := fun h => hopp ((land_shift_ne_iff opp p).mp h)
      have hor : oppRun opp (p :: rest) = [] := by
        simp [oppRun, List.takeWhile_cons_of_neg (by simpa using hopp)]
      rw [scanRay, if_neg h1, specDirFlips, hor]
      simp only [ne_eq, not_true_eq_false, false_and, if_false]
      by_cases hmy : my.testBit p
      · have h2 : (my &&& (1 <<< p) ≠ 0) := (land_shift_ne_iff my p).mpr hmy
        rw [if_pos h2]
        simp
      · have h2 : ¬(my &&& (1 <<< p) ≠ 0) := fun h => hmy ((land_shift_ne_iff my p).mp h)
        rw [if_neg h2]

/-- The ray scanned by `compute_flips` from square `pos` in direction `d`. -/
def rayFrom (pos : Nat) (d : Int × Int) : List Nat :=
  rayPositions 8 (((pos / 8 : Nat) : Int) + d.1) (((pos % 8 : Nat) : Int) + d.2) d.1 d.2

/-- Shared helper: `compute_flips` is the union over the 8 directions of the
spec-described per-direction contribution (no hypotheses needed). -/
lemma compute_flips_eq_spec_fold (b : BitBoard) (pos : Nat) (player : Player) :
    b.compute_flips pos player =
      directions.foldl
        (fun flips d =>
          flips ||| specDirFlips (mover_mask b player) (opp_mask b player) (rayFrom pos d))
        0 := by
  simp only [BitBoard.compute_flips, rayFrom, scanRay_eq_specDirFlips]

lemma foldl_lor_testBit {α : Type} (f : α → Nat) (l : List α) (i : Nat) :
    ∀ a : Nat, (l.foldl (fun x d => x ||| f d) a).testBit i = true →
      a.testBit i = true ∨ ∃ d ∈ l, (f d).testBit i = true := by
  induction l with
  | nil => intro a h; exact Or.inl h
  | cons d rest ih =>
    intro a h
    rcases ih (a ||| f d) h with h2 | ⟨e, he, hbit⟩
    · rw [Nat.testBit_or] at h2
      rcases Bool.or_eq_true_iff.mp h2 with h3 | h3
      · exact Or.inl h3
      · exact Or.inr ⟨d, List.mem_cons_self d rest, h3⟩
    · exact Or.inr ⟨e, List.mem_cons_of_mem d he, hbit⟩

lemma rayPositions_mem_bound (dr dc : Int) :
    ∀ (fuel : Nat) (r c : Int), ∀ p ∈ rayPositions fuel r c dr dc, p < 64 := by
  intro fuel
  induction fuel with
  | zero => intro r c p hp; simp [rayPositions] at hp
  | succ n ih =>
    intro r c p hp
    rw [rayPositions] at hp
    by_cases hb : 0 ≤ r ∧ r < 8 ∧ 0 ≤ c ∧ c < 8
    · rw [if_pos hb] at hp
      rcases List.mem_cons.mp hp with hp | hp
      · subst hp; omega
      · exact ih (r + dr) (c + dc) p hp
    · rw [if_neg hb] at hp; simp at hp

lemma rayPositions_ne_start (row col : Nat) (hrow : row < 8) (hcol : col < 8)
    (dr dc : Int) (hd : ¬(dr = 0 ∧ dc = 0)) :
    ∀ (fuel : Nat) (r c : Int),
      ((dr < 0 ∧ r < row) ∨ (dr = 0 ∧ r = row) ∨ (0 < dr ∧ (row : Int) < r)) →
      ((dc < 0 ∧ c < col) ∨ (dc = 0 ∧ c = col) ∨ (0 < dc ∧ (col : Int) < c)) →
      ∀ p ∈ rayPositions fuel r c dr dc, p ≠ row * 8 + col := by
  intro fuel
  induction fuel with
  | zero => intro r c _ _ p hp; simp [rayPositions] at hp
  | succ n ih =>
    intro r c h1 h2 p hp
    rw [rayPositions] at hp
    by_cases hb : 0 ≤ r ∧ r < 8 ∧ 0 ≤ c ∧ c < 8
    · rw [if_pos hb] at hp
      rcases List.mem_cons.mp hp with hp | hp
      · subst hp; omega
      · exact ih (r + dr) (c + dc) (by omega) (by omega) p hp
    · rw [if_neg hb] at hp; simp at hp

lemma runBits_testBit_mem (l : List Nat) (i : Nat) :
    (runBits l).testBit i = true → i ∈ l := by
  induction l with
  | nil => intro h; simp [runBits] at h
  | cons p rest ih =>
    intro h
    rw [runBits_cons, Nat.testBit_or] at h
    rcases Bool.or_eq_true_iff.mp h with h2 | h2
    · rw [Nat.one_shiftLeft, Nat.testBit_two_pow] at h2
      exact List.mem_cons.mpr (Or.inl (of_decide_eq_true h2).symm)
    · exact List.mem_cons_of_mem p (ih h2)

lemma oppRun_mem_opp (opp : Nat) (l : List Nat) (i : Nat) (h : i ∈ oppRun opp l) :
    opp.testBit i = true ∧ i ∈ l := by
  refine ⟨List.mem_takeWhile_imp h, ?_⟩
  exact (List.takeWhile_sublist _).mem h

/-- Per-direction consequence used by claims C5 and C10: every bit of a
direction contribution is an opponent disc lying on that direction's ray. -/
lemma specDirFlips_testBit (my opp : Nat) (l : List Nat) (i : Nat)
    (h : (specDirFlips my opp l).testBit i = true) :
    opp.testBit i = true ∧ i ∈ l := by
  rw [specDirFlips] at h
  by_cases hc : oppRun opp l ≠ [] ∧ runTerminated my opp l = true
  · rw [if_pos hc] at h
    exact oppRun_mem_opp opp l i (runBits_testBit_mem _ i h)
  · rw [if_neg hc] at h
    simp at h

/-- Shared helper: every bit of `compute_flips` is an opponent disc distinct
from the played square. -/
lemma compute_flips_testBit (b : BitBoard) (pos : Nat) (player : Player)
    (hpos : pos < 64) (i : Nat)
    (h : (b.compute_flips pos player).testBit i = true) :
    (opp_mask b player).testBit i = true ∧ i ≠ pos := by
  rw [compute_flips_eq_spec_fold] at h
  rcases foldl_lor_testBit _ directions i 0 h with h2 | ⟨d, hd, hbit⟩
  · simp at h2
  · obtain ⟨hopp, hmem⟩ := specDirFlips_testBit _ _ _ i hbit
    refine ⟨hopp, ?_⟩
    have hdnz : ¬(d.1 = 0 ∧ d.2 = 0) := by
      fin_cases hd <;> simp
    have hne := rayPositions_ne_start (pos / 8) (pos % 8)
      (by omega) (by omega) d.1 d.2 hdnz 8
      (((pos / 8 : Nat) : Int) + d.1) (((pos % 8 : Nat) : Int) + d.2)
      (by omega) (by omega) i hmem
    omega

/-- C4: for every board, empty position, and player, `compute_flips` scans all
8 directions from the position, and a direction contributes its run of
contiguous opponent discs to the returned flip mask exactly when that run is
non-empty and terminated by a disc of the moving player (a run ending at an
empty square or at the board edge contributes nothing). -/
theorem compute_flips_directional_spec (b : BitBoard) (pos : Nat) (player : Player)
    (hpos : pos < 64) (hempty : (b.black ||| b.white).testBit pos = false) :
    b.compute_flips pos player =
      directions.foldl
        (fun flips d =>
          flips ||| specDirFlips (mover_mask b player) (opp_mask b player) (rayFrom pos d))
        0 :=
  compute_flips_eq_spec_fold b pos player

/-- Witness for C4 at the initial board, square 19, Black to move. -/
theorem compute_flips_directional_spec_witness :
    BitBoard.new.compute_flips 19 .Black =
      directions.foldl
        (fun flips d =>
          flips |||
            specDirFlips (mover_mask BitBoard.new .Black) (opp_mask BitBoard.new .Black)
              (rayFrom 19 d))
        0 :=
  compute_flips_directional_spec BitBoard.new 19 .Black (by decide) (by decide)

/-- C2: `make_move` returns `false` and leaves both masks unchanged when the
square is occupied or the flip set is empty; otherwise it returns `true`, sets
the placed square and the flipped squares for the mover, and clears the
flipped squares from the opponent, in one update. -/
theorem make_move_spec (b : BitBoard) (pos : Nat) (player : Player) (hpos : pos < 64) :
    (((b.black ||| b.white) &&& (1 <<< pos) ≠ 0 ∨ b.compute_flips pos player = 0) →
      (b.make_move pos player).1 = false ∧ (b.make_move pos player).2 = b)
    ∧ ((b.black ||| b.white) &&& (1 <<< pos) = 0 → b.compute_flips pos player ≠ 0 →
      (b.make_move pos player).1 = true
      ∧ mover_mask (b.make_move pos player).2 player
          = mover_mask b player ||| ((1 <<< pos) ||| b.compute_flips pos player)
      ∧ opp_mask (b.make_move pos player).2 player
          = opp_mask b player &&& u64_not (b.compute_flips pos player)) := by
  constructor
  · intro h
    rcases h with h | h
    · rw [BitBoard.make_move, if_pos h]
      exact ⟨rfl, rfl⟩
    · rw [BitBoard.make_move]
      by_cases hocc : (b.black ||| b.white) &&& (1 <<< pos) ≠ 0
      · rw [if_pos hocc]; exact ⟨rfl, rfl⟩
      · rw [if_neg hocc]
        simp only [h, if_pos rfl]
        exact ⟨rfl, rfl⟩
  · intro hocc hflips
    rw [BitBoard.make_move, if_neg (by simp [hocc])]
    simp only [if_neg hflips]
    cases player <;> exact ⟨rfl, rfl, rfl⟩

/-- Witness for C2 at the initial board, square 19, Black to move. -/
theorem make_move_spec_witness :
    (BitBoard.new.make_move 19 .Black).1 = true
    ∧ mover_mask (BitBoard.new.make_move 19 .Black).2 .Black
        = mover_mask BitBoard.new .Black ||| ((1 <<< 19) ||| BitBoard.new.compute_flips 19 .Black)
    ∧ opp_mask (BitBoard.new.make_move 19 .Black).2 .Black
        = opp_mask BitBoard.new .Black &&& u64_not (BitBoard.new.compute_flips 19 .Black) :=
  (make_move_spec BitBoard.new 19 .Black (by decide)).2 (by decide) (by decide)

/-- C10: every bit of the flip mask is an opponent disc: it is never the
placed square, never an empty square, and (on a well-formed board) never a
disc of the moving player. -/
theorem compute_flips_opponent_only (b : BitBoard) (pos : Nat) (player : Player)
    (hpos : pos < 64) :
    ∀ i, (b.compute_flips pos player).testBit i = true →
      (opp_mask b player).testBit i = true ∧ i ≠ pos
      ∧ (b.black ||| b.white).testBit i = true
      ∧ (b.black &&& b.white = 0 → (mover_mask b player).testBit i = false) := by
  intro i h
  obtain ⟨hopp, hne⟩ := compute_flips_testBit b pos player hpos i h
  refine ⟨hopp, hne, ?_, ?_⟩
  · rw [Nat.testBit_or]
    cases player <;> simp_all [opp_mask]
  · intro hdisj
    have hb := congrArg (fun x => x.testBit i) hdisj
    simp only [Nat.testBit_and, Nat.zero_testBit] at hb
    rw [Bool.and_eq_false_iff] at hb
    cases player <;> simp only [mover_mask, opp_mask] at hopp ⊢ <;>
      rcases hb with hb | hb <;> simp_all

/-- Witness for C10 at the initial board, square 19, Black to move, bit 27. -/
theorem compute_flips_opponent_only_witness :
    (opp_mask BitBoard.new .Black).testBit 27 = true ∧ 27 ≠ 19
    ∧ (BitBoard.new.black ||| BitBoard.new.white).testBit 27 = true
    ∧ (BitBoard.new.black &&& BitBoard.new.white = 0 →
        (mover_mask BitBoard.new .Black).testBit 27 = false) :=
  compute_flips_opponent_only BitBoard.new 19 .Black (by decide) 27 (by decide)

lemma foldl_setbit_testBit (P Q : Nat → Prop) [DecidablePred P] [DecidablePred Q]
    (l : List Nat) (j : Nat) :
    ∀ a : Nat,
      (l.foldl (fun acc i => if P i then acc else if Q i then acc ||| (1 <<< i) else acc)
          a).testBit j
        = (a.testBit j || (decide (j ∈ l) && decide (¬P j) && decide (Q j))) := by
  induction l with
  | nil => intro a; simp
  | cons i rest ih =>
    intro a
    rw [List.foldl_cons, ih]
    by_cases hij : j = i
    · subst hij
      by_cases hP : P j
      · simp [hP]
      · by_cases hQ : Q j
        · simp [hP, hQ, Nat.testBit_or, Nat.one_shiftLeft, Nat.testBit_two_pow_self]
        · simp [hP, hQ]
    · have hbit : ∀ a : Nat,
          (if P i then a else if Q i then a ||| (1 <<< i) else a).testBit j = a.testBit j := by
        intro a
        split_ifs with h1 h2
        · rfl
        · rw [Nat.testBit_or, Nat.one_shiftLeft, Nat.testBit_two_pow_of_ne (fun h => hij h.symm)]
          simp
        · rfl
      rw [hbit]
      simp [List.mem_cons, hij]

/-- Shared helper: bit `pos` of `get_legal_moves` is set exactly when the
square is free and `compute_flips` is non-zero. -/
lemma get_legal_moves_testBit (b : BitBoard) (player : Player) (pos : Nat)
    (hpos : pos < 64) :
    (b.get_legal_moves player).testBit pos
      = (decide ((b.black ||| b.white) &&& (1 <<< pos) = 0)
          && decide (b.compute_flips pos player ≠ 0)) := by
  rw [BitBoard.get_legal_moves, foldl_setbit_testBit]
  simp [List.mem_range, hpos]

/-- Finite fact behind the adjacency pre-filter of `is_legal_move`: whenever a
direction's ray from a square holds at least two cells, the first ray cell is
covered by `get_adjacent_mask`. -/
lemma adjacent_covers_first_cell :
    ∀ pos ∈ List.range 64, ∀ d ∈ directions,
      2 ≤ (rayFrom pos d).length →
      (get_adjacent_mask pos).testBit ((rayFrom pos d).headD 0) = true := by decide

lemma specDirFlips_ne_zero_ray (my opp : Nat) (l : List Nat)
    (h : specDirFlips my opp l ≠ 0) :
    ∃ q t, l = q :: t ∧ opp.testBit q = true ∧ t ≠ [] := by
  rw [specDirFlips] at h
  by_cases hc : oppRun opp l ≠ [] ∧ runTerminated my opp l = true
  · obtain ⟨hrun, hterm⟩ := hc
    cases l with
    | nil => simp [oppRun] at hrun
    | cons q t =>
      by_cases hq : opp.testBit q
      · refine ⟨q, t, rfl, hq, ?_⟩
        intro ht
        subst ht
        rw [runTerminated, List.dropWhile_cons_of_pos hq] at hterm
        simp at hterm
      · rw [oppRun, List.takeWhile_cons_of_neg (by simpa using hq)] at hrun
        simp at hrun
  · rw [if_neg hc] at h
    simp at h

/-- Shared helper: a non-empty flip set implies the adjacency pre-filter of
`is_legal_move` passes. -/
lemma flips_nonzero_adjacent (b : BitBoard) (pos : Nat) (player : Player)
    (hpos : pos < 64) (h : b.compute_flips pos player ≠ 0) :
    get_adjacent_mask pos &&& opp_mask b player ≠ 0 := by
  rw [compute_flips_eq_spec_fold] at h
  obtain ⟨i, hi⟩ := Nat.ne_zero_implies_bit_true h
  rcases foldl_lor_testBit _ directions i 0 hi with h2 | ⟨d, hd, hbit⟩
  · simp at h2
  · have hnz : specDirFlips (mover_mask b player) (opp_mask b player) (rayFrom pos d) ≠ 0 := by
      intro h0
      rw [h0] at hbit
      simp at hbit
    obtain ⟨q, t, hray, hq, ht⟩ := specDirFlips_ne_zero_ray _ _ _ hnz
    have hlen : 2 ≤ (rayFrom pos d).length := by
      rw [hray]
      cases t with
      | nil => exact absurd rfl ht
      | cons x xs => simp
    have hadj := adjacent_covers_first_cell pos (List.mem_range.mpr hpos) d hd hlen
    rw [hray] at hadj
    simp only [List.headD_cons] at hadj
    intro hzero
    have := congrArg (fun x => x.testBit q) hzero
    simp only [Nat.testBit_and, Nat.zero_testBit, Bool.and_eq_false_iff] at this
    rcases this with h3 | h3
    · rw [hadj] at h3; exact Bool.noConfusion h3
    · rw [hq] at h3; exact Bool.noConfusion h3

/-- C5: a bit set in `get_legal_moves` is exactly a square where `make_move`
succeeds, and exactly a square satisfying `is_legal_move`. -/
theorem legal_moves_sound_complete (b : BitBoard) (player : Player) (pos : Nat)
    (hpos : pos < 64) :
    ((b.get_legal_moves player).testBit pos = true ↔ (b.make_move pos player).1 = true)
    ∧ (b.get_legal_moves player).testBit pos = b.is_legal_move pos player := by
  have hchar := get_legal_moves_testBit b player pos hpos
  constructor
  · rw [hchar, BitBoard.make_move]
    by_cases hocc : (b.black ||| b.white) &&& (1 <<< pos) ≠ 0
    · rw [if_pos hocc]
      simp [hocc]
    · rw [if_neg hocc]
      push_neg at hocc
      by_cases hflip : b.compute_flips pos player = 0
      · rw [if_pos hflip]
        simp [hflip]
      · rw [if_neg hflip]
        cases player <;> simp [hocc, hflip]
  · rw [hchar, BitBoard.is_legal_move]
    by_cases hocc : (b.black ||| b.white) &&& (1 <<< pos) ≠ 0
    · rw [if_pos hocc]
      simp [hocc]
    · rw [if_neg hocc]
      push_neg at hocc
      by_cases hadj : get_adjacent_mask pos &&& opp_mask b player = 0
      · rw [if_pos hadj]
        have : b.compute_flips pos player = 0 := by
          by_contra hne
          exact flips_nonzero_adjacent b pos player hpos hne hadj
        simp [hocc, this]
      · rw [if_neg hadj]
        simp [hocc]

/-- Witness for C5 at the initial board, square 19, Black to move. -/
theorem legal_moves_sound_complete_witness :
    ((BitBoard.new.get_legal_moves .Black).testBit 19 = true
      ↔ (BitBoard.new.make_move 19 .Black).1 = true)
    ∧ (BitBoard.new.get_legal_moves .Black).testBit 19
        = BitBoard.new.is_legal_move 19 .Black :=
  legal_moves_sound_complete BitBoard.new .Black 19 (by decide)

/-! ### Claim C3: reachable-board invariants -/

/-- Boards reachable from the initial position by any sequence of
`make_move` calls (failed moves leave the board unchanged). -/
inductive Reachable : BitBoard → Prop where
  | init : Reachable BitBoard.new
  | step (b : BitBoard) (pos : Nat) (player : Player) :
      Reachable b → pos < 64 → Reachable ((b.make_move pos player).2)

lemma U64_ALL_eq : U64_ALL = 2 ^ 64 - 1 := by norm_num [U64_ALL]

/-- Shared helper: flip masks fit in 64 bits. -/
lemma compute_flips_lt_two_pow (b : BitBoard) (pos : Nat) (player : Player) :
    b.compute_flips pos player < 2 ^ 64 := by
  by_contra h
  push_neg at h
  obtain ⟨i, hi, hbit⟩ := Nat.ge_two_pow_implies_high_bit_true h
  rw [compute_flips_eq_spec_fold] at hbit
  rcases foldl_lor_testBit _ directions i 0 hbit with h2 | ⟨d, _, hbit2⟩
  · simp at h2
  · obtain ⟨_, hmem⟩ := specDirFlips_testBit _ _ _ i hbit2
    simp only [rayFrom] at hmem
    have := rayPositions_mem_bound d.1 d.2 8 _ _ i hmem
    omega

lemma occupied_zero_testBit (x y : Nat) (pos : Nat)
    (h : (x ||| y) &&& (1 <<< pos) = 0) :
    x.testBit pos = false ∧ y.testBit pos = false := by
  have h2 := congrArg (fun z => z.testBit pos) h
  simp only [Nat.testBit_and, Nat.testBit_or, Nat.one_shiftLeft,
    Nat.testBit_two_pow_self, Bool.and_true, Nat.zero_testBit,
    Bool.or_eq_false_iff] at h2
  exact h2

lemma disjoint_after_move (my opp flips : Nat) (pos : Nat)
    (hdisj : my &&& opp = 0) (hopp : opp < 2 ^ 64)
    (hoppbit : opp.testBit pos = false) :
    (my ||| ((1 <<< pos) ||| flips)) &&& (opp &&& u64_not flips) = 0 := by
  apply Nat.eq_of_testBit_eq
  intro i
  simp only [Nat.testBit_and, Nat.testBit_or, Nat.zero_testBit]
  by_cases hi : i < 64
  · have hnot : (u64_not flips).testBit i = !flips.testBit i := by
      rw [u64_not, Nat.testBit_xor, U64_ALL_eq, Nat.testBit_two_pow_sub_one]
      simp [hi]
    rw [hnot]
    have hdis_i : ¬(my.testBit i = true ∧ opp.testBit i = true) := by
      intro hc
      have h3 := congrArg (fun z => z.testBit i) hdisj
      simp [Nat.testBit_and, hc.1, hc.2] at h3
    rw [Nat.one_shiftLeft, Nat.testBit_two_pow]
    by_cases hip : pos = i
    · subst hip
      simp [hoppbit]
    · simp only [hip, decide_False, Bool.false_or]
      cases hmy : my.testBit i <;> cases ho : opp.testBit i <;>
        cases hf : flips.testBit i <;> simp_all
  · have ho : opp.testBit i = false :=
      Nat.testBit_lt_two_pow
        (lt_of_lt_of_le hopp (Nat.pow_le_pow_right (by omega) (by omega)))
    simp [ho]

lemma countP_or_disj (l : List Nat) (p q : Nat → Bool)
    (h : ∀ i ∈ l, ¬(p i = true ∧ q i = true)) :
    l.countP (fun i => p i || q i) = l.countP p + l.countP q := by
  induction l with
  | nil => simp
  | cons x xs ih =>
    have hx := h x (List.mem_cons_self x xs)
    have ih2 := ih (fun i hi => h i (List.mem_cons_of_mem x hi))
    by_cases hp : p x = true
    · by_cases hq : q x = true
      · exact absurd ⟨hp, hq⟩ hx
      · simp only [Bool.not_eq_true] at hq
        simp [List.countP_cons, hp, hq, ih2]
        omega
    · simp only [Bool.not_eq_true] at hp
      by_cases hq : q x = true
      · simp [List.countP_cons, hp, hq, ih2]
        omega
      · simp only [Bool.not_eq_true] at hq
        simp [List.countP_cons, hp, hq, ih2]

lemma popcount64_lor_disjoint (x y : Nat) (h : x &&& y = 0) :
    popcount64 (x ||| y) = popcount64 x + popcount64 y := by
  have hdis : ∀ i ∈ List.range 64, ¬(x.testBit i = true ∧ y.testBit i = true) := by
    intro i _ hc
    have h2 := congrArg (fun z => z.testBit i) h
    simp [Nat.testBit_and, hc.1, hc.2] at h2
  rw [popcount64, popcount64, popcount64, ← countP_or_disj _ _ _ hdis]
  simp only [Nat.testBit_or]

lemma popcount64_le (x : Nat) : popcount64 x ≤ 64 := by
  rw [popcount64]
  have h1 : List.countP (fun i => x.testBit i) (List.range 64) ≤ (List.range 64).length :=
    List.countP_le_length _
  simpa using h1

lemma reachable_strong (b : BitBoard) (h : Reachable b) :
    b.black &&& b.white = 0 ∧ b.black < 2 ^ 64 ∧ b.white < 2 ^ 64 := by
  induction h with
  | init =>
    refine ⟨by decide, by norm_num [BitBoard.new, DEFAULT_BLACK], by norm_num [BitBoard.new, DEFAULT_WHITE]⟩
  | step b pos player _ hpos ih =>
    obtain ⟨hdisj, hb, hw⟩ := ih
    rw [BitBoard.make_move]
    by_cases hocc : (b.black ||| b.white) &&& (1 <<< pos) ≠ 0
    · rw [if_pos hocc]
      exact ⟨hdisj, hb, hw⟩
    · rw [if_neg hocc]
      push_neg at hocc
      by_cases hflip : b.compute_flips pos player = 0
      · rw [if_pos hflip]
        exact ⟨hdisj, hb, hw⟩
      · rw [if_neg hflip]
        have hposbit : (1 <<< pos) < 2 ^ 64 := by
          rw [Nat.one_shiftLeft]
          exact Nat.pow_lt_pow_right (by omega) hpos
        have hflt := compute_flips_lt_two_pow b pos player
        obtain ⟨hbp, hwp⟩ := occupied_zero_testBit b.black b.white pos hocc
        have hnotlt : u64_not (b.compute_flips pos player) < 2 ^ 64 := by
          rw [u64_not]
          exact Nat.xor_lt_two_pow (by rw [U64_ALL_eq]; omega) hflt
        cases player
        · refine ⟨disjoint_after_move _ _ _ pos hdisj hw hwp, ?_, ?_⟩
          · exact Nat.or_lt_two_pow hb (Nat.or_lt_two_pow hposbit hflt)
          · exact Nat.and_lt_two_pow _ hnotlt
        · refine ⟨?_, ?_, ?_⟩
          · rw [Nat.and_comm]
            exact disjoint_after_move _ _ _ pos (by rw [Nat.and_comm]; exact hdisj) hb hbp
          · exact Nat.and_lt_two_pow _ hnotlt
          · exact Nat.or_lt_two_pow hw (Nat.or_lt_two_pow hposbit hflt)

/-- C3: every board reachable from the initial position by `make_move` calls
has disjoint black and white masks, and the disc counts plus the empty-square
count total 64. -/
theorem reachable_board_invariant (b : BitBoard) (h : Reachable b) :
    b.black &&& b.white = 0
    ∧ popcount64 b.black + popcount64 b.white + b.empty_count = 64 := by
  obtain ⟨hdisj, _, _⟩ := reachable_strong b h
  refine ⟨hdisj, ?_⟩
  have hsum : popcount64 (b.black ||| b.white)
      = popcount64 b.black + popcount64 b.white :=
    popcount64_lor_disjoint _ _ hdisj
  have hle := popcount64_le (b.black ||| b.white)
  rw [BitBoard.empty_count]
  omega

/-- Witness for C3 at the initial board. -/
theorem reachable_board_invariant_witness :
    BitBoard.new.black &&& BitBoard.new.white = 0
    ∧ popcount64 BitBoard.new.black + popcount64 BitBoard.new.white
        + BitBoard.new.empty_count = 64 :=
  reachable_board_invariant BitBoard.new Reachable.init

/-! ### `ai.rs`: constants, terminal evaluation, safe negation, TT probe -/

/-- Embedding of `i32::MIN`. -/
def INT32_MIN : Int := -2147483648

/-- Embedding of `i32::MAX`. -/
def INT32_MAX : Int := 2147483647

/-- Embedding of `safe_neg` from `ai.rs`: negation with the minimum sentinel mapped to the
maximum sentinel to avoid `i32` overflow. -/
def safe_neg (value : Int) : Int := if value = INT32_MIN then INT32_MAX else -value

/-- Embedding of `BitBoard::evaluate_game_end` from `ai.rs`. -/
def BitBoard.evaluate_game_end (b : BitBoard) (player : Player) : Int :=
  let black_count : Int := popcount64 b.black
  let white_count : Int := popcount64 b.white
  let diff : Int :=
    match player with
    | .Black => black_count - white_count
    | .White => white_count - black_count
  if diff > 0 then 10000 + diff
  else if diff < 0 then -10000 + diff
  else 0

/-- The disc differential from the evaluated player's view (the `diff` of
`evaluate_game_end`). -/
def disc_diff (b : BitBoard) (player : Player) : Int :=
  (popcount64 (mover_mask b player) : Int) - (popcount64 (opp_mask b player) : Int)

/-- C7: on a game-over board the terminal evaluation is `10000 + diff` for a
winning view, `-(10000 + |diff|)` for a losing view, `0` on a tie, and the
Black score is the exact negation of the White score. -/
theorem evaluate_game_end_spec (b : BitBoard) (hgo : b.is_game_over = true)
    (player : Player) :
    (0 < disc_diff b player →
      b.evaluate_game_end player = 10000 + disc_diff b player)
    ∧ (disc_diff b player < 0 →
      b.evaluate_game_end player = -(10000 + ((disc_diff b player).natAbs : Int)))
    ∧ (disc_diff b player = 0 → b.evaluate_game_end player = 0)
    ∧ b.evaluate_game_end .Black = -(b.evaluate_game_end .White) := by
  have hsym : b.evaluate_game_end .Black = -(b.evaluate_game_end .White) := by
    simp only [BitBoard.evaluate_game_end]
    split_ifs <;> omega
  refine ⟨?_, ?_, ?_, hsym⟩ <;>
    cases player <;>
      simp only [BitBoard.evaluate_game_end, disc_diff, mover_mask, opp_mask] <;>
        split_ifs <;> omega

/-- Witness for C7 at the all-black full board. -/
theorem evaluate_game_end_spec_witness :
    (0 < disc_diff ⟨U64_ALL, 0⟩ .Black →
      BitBoard.evaluate_game_end ⟨U64_ALL, 0⟩ .Black = 10000 + disc_diff ⟨U64_ALL, 0⟩ .Black)
    ∧ (disc_diff ⟨U64_ALL, 0⟩ .Black < 0 →
      BitBoard.evaluate_game_end ⟨U64_ALL, 0⟩ .Black
        = -(10000 + ((disc_diff ⟨U64_ALL, 0⟩ .Black).natAbs : Int)))
    ∧ (disc_diff ⟨U64_ALL, 0⟩ .Black = 0 →
      BitBoard.evaluate_game_end ⟨U64_ALL, 0⟩ .Black = 0)
    ∧ BitBoard.evaluate_game_end ⟨U64_ALL, 0⟩ .Black
        = -(BitBoard.evaluate_game_end ⟨U64_ALL, 0⟩ .White) :=
  evaluate_game_end_spec ⟨U64_ALL, 0⟩ (by decide) .Black

/-- C8: `safe_neg` maps the minimum `i32` sentinel to the maximum sentinel,
every other value to its exact arithmetic negation, and never leaves the
`i32` range on an in-range input (so no negation in the search overflows). -/
theorem safe_neg_spec :
    safe_neg INT32_MIN = INT32_MAX
    ∧ (∀ v : Int, v ≠ INT32_MIN → safe_neg v = -v)
    ∧ (∀ v : Int, INT32_MIN ≤ v → v ≤ INT32_MAX →
        INT32_MIN < safe_neg v ∧ safe_neg v ≤ INT32_MAX) := by
  refine ⟨by simp [safe_neg], fun v hv => by simp [safe_neg, hv], fun v h1 h2 => ?_⟩
  rw [safe_neg]
  split_ifs with h
  · subst h
    constructor <;> norm_num [INT32_MIN, INT32_MAX]
  · constructor <;> simp only [INT32_MIN, INT32_MAX] at h h1 h2 ⊢ <;> omega

/-- Witness for C8 at `v = 7`. -/
theorem safe_neg_spec_witness : safe_neg 7 = -7 :=
  safe_neg_spec.2.1 7 (by decide)

/-- Embedding of `NodeType` from `player.rs`. -/
inductive NodeType where
  | Exact
  | LowerBound
  | UpperBound
deriving DecidableEq, Repr

/-- Embedding of `Entry` from `player.rs`. -/
structure Entry where
  score : Int
  depth : Nat
  flag : NodeType
  best_move : Option Nat
deriving DecidableEq, Repr

/-- The transposition-table key `(black, white, player as u8)`. -/
abbrev TTKey : Type := Nat × Nat × Nat

/-- Embedding of `(self.black, self.white, player as u8)` from `ai.rs`. -/
def tt_key (b : BitBoard) (player : Player) : TTKey := (b.black, b.white, player_u8 player)

/-- The transposition table, modelled as an association list with unique keys
(`FxHashMap` iteration order is irrelevant to lookup and insert). -/
abbrev TTMap : Type := List (TTKey × Entry)

/-- Embedding of `tt.get(&key)`. -/
def tt_find (tt : TTMap) (k : TTKey) : Option Entry :=
  (tt.find? (fun kv => decide (kv.1 = k))).map (fun kv => kv.2)

/-- Embedding of `tt.insert(key, entry)` (replaces any previous binding of the key). -/
def tt_insert (tt : TTMap) (k : TTKey) (e : Entry) : TTMap :=
  (k, e) :: tt.filter (fun kv => decide (kv.1 ≠ k))

/-- Outcome of the TT-probe block at the top of `minimax_with_tt_internal`:
either an immediate return or the continuation window. -/
inductive ProbeResult where
  | ret (score : Int)
  | cont (alpha beta : Int)
deriving DecidableEq, Repr

/-- The TT-probe block of `minimax_with_tt_internal` (`ai.rs` lines 586-605):
`Exact` returns; `LowerBound` returns on `score >= beta` and otherwise raises
`alpha`; `UpperBound` returns on `score <= alpha` and otherwise continues with
the window unchanged. -/
def tt_probe (entry : Option Entry) (depth : Nat) (alpha beta : Int) : ProbeResult :=
  match entry with
  | none => .cont alpha beta
  | some e =>
    if e.depth ≥ depth then
      match e.flag with
      | .Exact => .ret e.score
      | .LowerBound =>
        if e.score ≥ beta then .ret e.score else .cont (max alpha e.score) beta
      | .UpperBound =>
        if e.score ≤ alpha then .ret e.score else .cont alpha beta
    else .cont alpha beta

/-- Modelled from the spec: the probe as claim C6 describes it, where the
non-returning cases tighten `alpha` and `beta` by the stored bound. -/
def claimed_tt_probe (entry : Option Entry) (depth : Nat) (alpha beta : Int) : ProbeResult :=
  match entry with
  | none => .cont alpha beta
  | some e =>
    if e.depth ≥ depth then
      match e.flag with
      | .Exact => .ret e.score
      | .LowerBound =>
        if e.score ≥ beta then .ret e.score else .cont (max alpha e.score) beta
      | .UpperBound =>
        if e.score ≤ alpha then .ret e.score else .cont alpha (min beta e.score)
    else .cont alpha beta

/-- Counterexample to C6 as stated: an `UpperBound` entry whose score lies
strictly inside the window is resolved by the code with `beta` unchanged,
not tightened to the stored bound. -/
theorem tt_probe_claim_counterexample :
    tt_probe (some ⟨5, 3, .UpperBound, none⟩) 1 0 10
      ≠ claimed_tt_probe (some ⟨5, 3, .UpperBound, none⟩) 1 0 10 := by decide

/-! ### `ai.rs`: search-heuristic state and the static evaluator -/

/-- Embedding of `PVTable` from `ai.rs` (`length: [usize; 64]`, `moves: [[u8; 64]; 64]`),
modelled with total functions over the indices. -/
structure PVTable where
  length : Nat → Nat
  moves : Nat → Nat → Nat

/-- Embedding of `PVTable::new`. -/
def PVTable.new : PVTable := ⟨fun _ => 0, fun _ _ => 0⟩

/-- The `pv_table.length[ply] = 0` assignment. -/
def PVTable.setLen (pv : PVTable) (ply n : Nat) : PVTable :=
  ⟨fun p => if p = ply then n else pv.length p, pv.moves⟩

/-- Embedding of `PVTable::update`: place `best_move` first at `ply` and copy the
continuation from `from_ply` (in the source, `from_ply = ply + 1 ≠ ply`, so
reading the old table is the in-place loop's behaviour). -/
def PVTable.update (pv : PVTable) (ply best_move from_ply : Nat) : PVTable :=
  ⟨fun p => if p = ply then pv.length from_ply + 1 else pv.length p,
   fun p i =>
     if p = ply then
       if i = 0 then best_move
       else if i ≤ pv.length from_ply then pv.moves from_ply (i - 1)
       else pv.moves p i
     else pv.moves p i⟩

/-- Embedding of `PVTable::get_pv_move`. -/
def PVTable.get_pv_move (pv : PVTable) (ply : Nat) : Option Nat :=
  if pv.length ply > 0 then some (pv.moves ply 0) else none

/-- Embedding of `KillerMoves` from `ai.rs` (`moves: [[Option<u8>; 2]; 64]`), modelled as
two slot functions. -/
structure KillerMoves where
  k0 : Nat → Option Nat
  k1 : Nat → Option Nat

/-- Embedding of `KillerMoves::new`. -/
def KillerMoves.new : KillerMoves := ⟨fun _ => none, fun _ => none⟩

/-- Embedding of `KillerMoves::add_killer`. -/
def KillerMoves.add_killer (km : KillerMoves) (ply mv : Nat) : KillerMoves :=
  if 64 ≤ ply then km
  else if km.k0 ply ≠ some mv then
    ⟨fun p => if p = ply then some mv else km.k0 p,
     fun p => if p = ply then km.k0 ply else km.k1 p⟩
  else km

/-- Embedding of `KillerMoves::is_killer`. -/
def KillerMoves.is_killer (km : KillerMoves) (ply mv : Nat) : Bool :=
  if 64 ≤ ply then false
  else decide (km.k0 ply = some mv) || decide (km.k1 ply = some mv)

/-- Embedding of `HistoryTable` from `ai.rs` (`scores: [[[i32; 64]; 2]; 2]`). -/
structure HistoryTable where
  scores : Nat → Nat → Nat → Int

/-- Embedding of `HistoryTable::new`. -/
def HistoryTable.new : HistoryTable := ⟨fun _ _ _ => 0⟩

/-- Embedding of `HistoryTable::update` (bonus `depth²`, half-bonus penalty, clamped to
`[-10000, 10000]`). -/
def HistoryTable.update (h : HistoryTable) (phase player mv depth : Nat)
    (is_good : Bool) : HistoryTable :=
  if 64 ≤ mv ∨ 2 ≤ phase ∨ 2 ≤ player then h
  else
    let bonus : Int := (depth : Int) * (depth : Int)
    let v :=
      if is_good then h.scores phase player mv + bonus
      else h.scores phase player mv - bonus / 2
    let clamped := max (-10000) (min 10000 v)
    ⟨fun a c m => if a = phase ∧ c = player ∧ m = mv then clamped else h.scores a c m⟩

/-- Embedding of `HistoryTable::get_score`. -/
def HistoryTable.get_score (h : HistoryTable) (phase player mv : Nat) : Int :=
  if 64 ≤ mv ∨ 2 ≤ phase ∨ 2 ≤ player then 0 else h.scores phase player mv

/-- Embedding of `GamePhase` from `ai.rs`. -/
inductive GamePhase where
  | Early
  | Mid
  | End
deriving DecidableEq, Repr

/-- Embedding of `GamePhase::from_empty_count` (`EARLY_GAME_THRESHOLD = 25`,
`64 - MID_GAME_THRESHOLD = 14`). -/
def GamePhase.from_empty_count (empty_count : Nat) : GamePhase :=
  if 25 < empty_count then .Early
  else if 14 < empty_count then .Mid
  else .End

/-- Embedding of `GamePhase::index`. -/
def GamePhase.index : GamePhase → Nat
  | .Early => 0
  | .Mid => 0
  | .End => 1

/-- Embedding of `Move` from `ai.rs`: square plus ordering score. -/
structure Move where
  position : Nat
  score : Int
deriving DecidableEq, Repr

/-- Embedding of `POSITION_SCORE` from `ai.rs`. -/
def POSITION_SCORE : List (List Int) :=
  [[100, -20, 10, 5, 5, 10, -20, 100],
   [-20, -50, -2, -2, -2, -2, -50, -20],
   [10, -2, -1, -1, -1, -1, -2, 10],
   [5, -2, -1, -1, -1, -1, -2, 5],
   [5, -2, -1, -1, -1, -1, -2, 5],
   [10, -2, -1, -1, -1, -1, -2, 10],
   [-20, -50, -2, -2, -2, -2, -50, -20],
   [100, -20, 10, 5, 5, 10, -20, 100]]

/-- Embedding of `POSITION_SCORE[row][col]`. -/
def position_score (row col : Nat) : Int := (POSITION_SCORE.getD row []).getD col 0

/-- Insert a move into a list sorted by strictly decreasing score, after any
equal-scored moves already present. -/
def insert_desc (m : Move) : List Move → List Move
  | [] => [m]
  | x :: xs => if x.score < m.score then m :: x :: xs else x :: insert_desc m xs

/-- Descending stable sort on the ordering score.  The source uses
`sort_unstable` with `Ord` comparing only scores, which leaves the relative
order of equal-scored moves unspecified; this model fixes it to the stable
order (ascending square index among ties). -/
def sort_desc : List Move → List Move
  | [] => []
  | x :: xs => insert_desc x (sort_desc xs)

/-- Embedding of `BitBoard::order_moves` from `ai.rs`. -/
def BitBoard.order_moves (b : BitBoard) (legal_moves : Nat) (player : Player)
    (ply : Nat) (pv : PVTable) (km : KillerMoves) (ht : HistoryTable) : List Move :=
  let phase := GamePhase.from_empty_count (64 - popcount64 (b.black ||| b.white))
  let phase_idx := phase.index
  let player_idx := player_u8 player
  let base :=
    (List.range 64).foldl
      (fun acc pos =>
        if legal_moves &&& (1 <<< pos) = 0 then acc
        else
          let s1 : Int :=
            match pv.get_pv_move ply with
            | some pv_move => if pv_move = pos then 10000 else 0
            | none => 0
          let s2 : Int := if km.is_killer ply pos then 5000 else 0
          let s3 := ht.get_score phase_idx player_idx pos
          let s4 := position_score (pos / 8) (pos % 8)
          let s5 : Int := if pos = 0 ∨ pos = 7 ∨ pos = 56 ∨ pos = 63 then 300 else 0
          let s6 : Int := (popcount64 (b.compute_flips pos player) : Int) * 10
          acc ++ [⟨pos, s1 + s2 + s3 + s4 + s5 + s6⟩])
      []
  sort_desc base

/-- Embedding of `BitBoard::is_endgame` from `ai.rs`. -/
def BitBoard.is_endgame (b : BitBoard) : Bool :=
  55 ≤ popcount64 (b.black ||| b.white)

/-- Embedding of `BitBoard::evaluate_mobility` from `ai.rs` (`PASS_BONUS = 30`). -/
def BitBoard.evaluate_mobility (b : BitBoard) (player : Player) : Int :=
  let my_moves : Int := popcount64 (b.get_legal_moves player)
  let opp_moves : Int := popcount64 (b.get_legal_moves player.opponent)
  let mobility_diff := my_moves - opp_moves
  if opp_moves = 0 ∧ my_moves > 0 then mobility_diff + 30
  else if my_moves = 0 ∧ opp_moves > 0 then mobility_diff - 30
  else mobility_diff

/-- Embedding of `BitBoard::evaluate_position_value` from `ai.rs`. -/
def BitBoard.evaluate_position_value (b : BitBoard) (player : Player) : Int :=
  (List.range 64).foldl
    (fun score pos =>
      if mover_mask b player &&& (1 <<< pos) ≠ 0 then
        score + position_score (pos / 8) (pos % 8)
      else if opp_mask b player &&& (1 <<< pos) ≠ 0 then
        score - position_score (pos / 8) (pos % 8)
      else score)
    0

/-- Embedding of `BitBoard::evaluate_disc_count` from `ai.rs`. -/
def BitBoard.evaluate_disc_count (b : BitBoard) (player : Player) : Int :=
  (b.count_discs player : Int) - (b.count_discs player.opponent : Int)

/-- The corner list `[0, 7, 56, 63]` of `ai.rs`. -/
def CORNERS : List Nat := [0, 7, 56, 63]

/-- Embedding of `BitBoard::evaluate_corners_optimized` from `ai.rs` (`CORNER_WEIGHT = 300`). -/
def BitBoard.evaluate_corners_optimized (b : BitBoard) (player : Player) : Int :=
  CORNERS.foldl
    (fun score corner =>
      if b.black &&& (1 <<< corner) ≠ 0 then
        score + (if player = .Black then 300 else -300)
      else if b.white &&& (1 <<< corner) ≠ 0 then
        score + (if player = .White then 300 else -300)
      else score)
    0

/-- Embedding of `BitBoard::check_direction_stability` from `ai.rs`: walk from `(r, c)` in
direction `(dr, dc)`; an already-stable disc means stable, a non-own cell
means not stable, the edge means stable.  A walk visits at most 8 in-bounds
cells, and after 8 steps the position is off the board, so fuel 8 makes the
fuel-exhausted case (return `true`) coincide with the source's edge case. -/
def check_direction_stability : Nat → Int → Int → Int → Int → Nat → Nat → Bool
  | 0, _, _, _, _, _, _ => true
  | fuel + 1, r, c, dr, dc, my_board, stable =>
    if 0 ≤ r ∧ r < 8 ∧ 0 ≤ c ∧ c < 8 then
      if stable &&& (1 <<< (r * 8 + c).toNat) ≠ 0 then true
      else if my_board &&& (1 <<< (r * 8 + c).toNat) = 0 then false
      else check_direction_stability fuel (r + dr) (c + dc) dr dc my_board stable
    else true

/-- The four opposite-direction pairs (`directions.chunks(2)`) of
`expand_stability`. -/
def STAB_DIR_PAIRS : List ((Int × Int) × (Int × Int)) :=
  [((0, 1), (0, -1)), ((1, 0), (-1, 0)), ((1, 1), (-1, -1)), ((1, -1), (-1, 1))]

/-- One `for pos in 0..64` sweep of `expand_stability`, threading the growing
stable set and the `changed` flag exactly as the in-place loop does. -/
def stability_sweep (my_board : Nat) (stable0 : Nat) : Nat × Bool :=
  (List.range 64).foldl
    (fun st pos =>
      if my_board &&& (1 <<< pos) ≠ 0 ∧ st.1 &&& (1 <<< pos) = 0 then
        let row : Int := (pos / 8 : Nat)
        let col : Int := (pos % 8 : Nat)
        let is_stable := STAB_DIR_PAIRS.all
          (fun pr =>
            check_direction_stability 8 (row + pr.1.1) (col + pr.1.2) pr.1.1 pr.1.2
                my_board st.1
              || check_direction_stability 8 (row + pr.2.1) (col + pr.2.2) pr.2.1 pr.2.2
                my_board st.1)
        if is_stable then (st.1 ||| (1 <<< pos), true) else st
      else st)
    (stable0, false)

/-- The `while changed` loop of `BitBoard::expand_stability`.  Every sweep that
reports a change adds at least one bit to a 64-bit mask, so at most 64 changed
sweeps can occur and fuel 65 always reaches the source loop's fixpoint. -/
def expand_stability : Nat → Nat → Nat → Nat
  | 0, _, stable => stable
  | fuel + 1, my_board, stable =>
    let s := stability_sweep my_board stable
    if s.2 then expand_stability fuel my_board s.1 else s.1

/-- Embedding of `BitBoard::compute_stable_discs` from `ai.rs` (the unused `occupied`
argument of the Rust helpers is dropped). -/
def BitBoard.compute_stable_discs (b : BitBoard) (player : Player) : Nat :=
  let my_board := mover_mask b player
  CORNERS.foldl
    (fun stable corner =>
      if my_board &&& (1 <<< corner) ≠ 0 then
        expand_stability 65 my_board (stable ||| (1 <<< corner))
      else stable)
    0

/-- Embedding of `BitBoard::evaluate_stability` from `ai.rs`. -/
def BitBoard.evaluate_stability (b : BitBoard) (player : Player) : Int :=
  (popcount64 (b.compute_stable_discs player) : Int)
    - (popcount64 (b.compute_stable_discs player.opponent) : Int)

/-- Embedding of `BitBoard::evaluate_parity` from `ai.rs`. -/
def BitBoard.evaluate_parity (b : BitBoard) (player : Player) : Int :=
  let empty_count := 64 - popcount64 (b.black ||| b.white)
  if empty_count % 2 = 0 then (if player = .White then 10 else -10)
  else (if player = .Black then 10 else -10)

/-- Embedding of `BitBoard::evaluate_board_optimized` from `ai.rs`
(`MOBILITY_WEIGHT = [25, 15, 8]`, `DISC_DIFF_WEIGHT = [5, 20, 1000]`). -/
def BitBoard.evaluate_board_optimized (b : BitBoard) (player : Player) : Int :=
  let empty_count := 64 - popcount64 (b.black ||| b.white)
  let phase := GamePhase.from_empty_count empty_count
  let black_legal := b.get_legal_moves .Black
  let white_legal := b.get_legal_moves .White
  if black_legal = 0 ∧ white_legal = 0 then b.evaluate_game_end player
  else
    match phase with
    | .Early =>
        b.evaluate_mobility player * 25 + b.evaluate_position_value player
          + b.evaluate_disc_count player * 5
    | .Mid =>
        b.evaluate_mobility player * 15 + b.evaluate_position_value player
          + b.evaluate_corners_optimized player + b.evaluate_stability player
          + b.evaluate_disc_count player * 20
    | .End =>
        b.evaluate_disc_count player * 1000 + b.evaluate_corners_optimized player
          + b.evaluate_stability player * 2 + b.evaluate_parity player
          + b.evaluate_mobility player * 8

/-! ### `ai.rs`: the negamax search `minimax_with_tt_internal` -/

/-- Embedding of `FUTILITY_MARGIN` from `ai.rs`. -/
def FUTILITY_MARGIN : List Int := [0, 200, 300, 500, 900]

/-- Embedding of `FUTILITY_MARGIN[depth]`; only indexed under `depth < 5` in the source. -/
def futility_margin (depth : Nat) : Int := FUTILITY_MARGIN.getD depth 0

/-- The mutable state threaded through the search: the transposition table and
the heuristic tables, all passed by `&mut` in the source. -/
structure SearchState where
  tt : TTMap
  pv : PVTable
  killers : KillerMoves
  history : HistoryTable

/-- The `for (move_count, &mv) in moves.iter().enumerate()` loop of
`minimax_with_tt_internal` (`ai.rs` lines 695-803): futility skip, move
application, PVS with late-move reduction and re-search, best-score and
alpha/beta bookkeeping, killer/history updates, beta cutoff.
`child` is the recursive search at the smaller fuel
(`LMR_DEPTH_THRESHOLD = 3`, `LMR_MOVE_THRESHOLD = 3`). -/
def search_moves
    (child : BitBoard → Player → Nat → Int → Int → Nat → SearchState → Int × SearchState)
    (b : BitBoard) (player : Player) (depth : Nat) (beta : Int) (ply : Nat)
    (futility_prune : Bool) (static_eval : Int) (phase_idx player_idx : Nat) :
    List Move → Nat → Int → Option Nat → Int → SearchState → Int × Option Nat × SearchState
  | [], _, best_score, best_move, _, st => (best_score, best_move, st)
  | mv :: rest, move_count, best_score, best_move, alpha, st =>
    if futility_prune = true ∧ 0 < move_count ∧ static_eval + futility_margin depth ≤ alpha then
      search_moves child b player depth beta ply futility_prune static_eval phase_idx
        player_idx rest (move_count + 1) best_score best_move alpha st
    else
      let mm := b.make_move mv.position player
      if mm.1 = false then
        search_moves child b player depth beta ply futility_prune static_eval phase_idx
          player_idx rest (move_count + 1) best_score best_move alpha st
      else
        let scoreSt : Int × SearchState :=
          if move_count = 0 then
            let r := child mm.2 player.opponent (depth - 1) (safe_neg beta) (safe_neg alpha)
              (ply + 1) st
            (safe_neg r.1, r.2)
          else
            let reduction : Nat :=
              if 3 ≤ depth ∧ 3 ≤ move_count ∧ ¬st.killers.is_killer ply mv.position = true
              then 1 else 0
            let search_depth := depth - (1 + reduction)
            let r := child mm.2 player.opponent search_depth (safe_neg alpha - 1)
              (safe_neg alpha) (ply + 1) st
            let score := safe_neg r.1
            if alpha < score ∧ (0 < reduction ∨ score < beta) then
              let r2 := child mm.2 player.opponent (depth - 1) (safe_neg beta) (safe_neg alpha)
                (ply + 1) r.2
              (safe_neg r2.1, r2.2)
            else (score, r.2)
        let score := scoreSt.1
        let st1 := scoreSt.2
        if best_score < score then
          let st2 := { st1 with pv := st1.pv.update ply mv.position (ply + 1) }
          if alpha < score then
            let st3 :=
              { st2 with history := st2.history.update phase_idx player_idx mv.position depth true }
            if beta ≤ score then
              let st4 := { st3 with killers := st3.killers.add_killer ply mv.position }
              let decayed :=
                rest.foldl (fun h m => h.update phase_idx player_idx m.position depth false)
                  st4.history
              let st5 := { st4 with history := decayed }
              (score, some mv.position, st5)
            else
              search_moves child b player depth beta ply futility_prune static_eval phase_idx
                player_idx rest (move_count + 1) score (some mv.position) score st3
          else
            search_moves child b player depth beta ply futility_prune static_eval phase_idx
              player_idx rest (move_count + 1) score (some mv.position) alpha st2
        else
          search_moves child b player depth beta ply futility_prune static_eval phase_idx
            player_idx rest (move_count + 1) best_score best_move alpha st1

/-- Embedding of `BitBoard::minimax_with_tt_internal` from `ai.rs`, with an explicit fuel
for the recursion.  Every recursive call of the source strictly decreases
`depth`, and the wrapper below passes `fuel = depth`, so `fuel ≥ depth` always
holds and fuel 0 implies `depth = 0`: the fuel-0 case is the source's depth-0
path (probe, then leaf evaluation).  The `null_move: bool` parameter of the
source is dead (never read) and is dropped. -/
def minimaxAux : Nat → BitBoard → Player → Nat → Int → Int → Nat → SearchState →
    Int × SearchState
  | 0, b, player, depth, alpha, beta, ply, st0 =>
    let st := { st0 with pv := st0.pv.setLen ply 0 }
    let key := tt_key b player
    match tt_probe (tt_find st.tt key) depth alpha beta with
    | .ret s => (s, st)
    | .cont _ _ =>
      let score := b.evaluate_board_optimized player
      (score, { st with tt := tt_insert st.tt key ⟨score, depth, .Exact, none⟩ })
  | fuel + 1, b, player, depth, alpha0, beta, ply, st0 =>
    let original_alpha := alpha0
    let st := { st0 with pv := st0.pv.setLen ply 0 }
    let key := tt_key b player
    match tt_probe (tt_find st.tt key) depth alpha0 beta with
    | .ret s => (s, st)
    | .cont alpha _ =>
      if depth = 0 then
        let score := b.evaluate_board_optimized player
        (score, { st with tt := tt_insert st.tt key ⟨score, depth, .Exact, none⟩ })
      else if b.is_game_over = true then
        let score := b.evaluate_game_end player
        (score, { st with tt := tt_insert st.tt key ⟨score, depth, .Exact, none⟩ })
      else
        let legal_moves := b.get_legal_moves player
        if legal_moves = 0 then
          let r := minimaxAux fuel b player.opponent (depth - 1) (safe_neg beta)
            (safe_neg alpha) (ply + 1) st
          let score := safe_neg r.1
          (score, { r.2 with tt := tt_insert r.2.tt key ⟨score, depth, .Exact, none⟩ })
        else
          let futility_prune : Bool := decide (depth < 5) && !b.is_endgame
          let static_eval :=
            if futility_prune = true then b.evaluate_board_optimized player else 0
          let moves := b.order_moves legal_moves player ply st.pv st.killers st.history
          let phase_idx :=
            (GamePhase.from_empty_count (64 - popcount64 (b.black ||| b.white))).index
          let player_idx := player_u8 player
          let r := search_moves (minimaxAux fuel) b player depth beta ply futility_prune
            static_eval phase_idx player_idx moves 0 INT32_MIN none alpha st
          let best_score := r.1
          let best_move := r.2.1
          let st1 := r.2.2
          let flag :=
            if best_score ≤ original_alpha then NodeType.UpperBound
            else if beta ≤ best_score then NodeType.LowerBound
            else NodeType.Exact
          (best_score,
            { st1 with tt := tt_insert st1.tt key ⟨best_score, depth, flag, best_move⟩ })

/-- Embedding of `minimax_with_tt_internal` at its call sites: fuel equals the remaining
depth. -/
def minimax_with_tt_internal (b : BitBoard) (player : Player) (depth : Nat)
    (alpha beta : Int) (ply : Nat) (st : SearchState) : Int × SearchState :=
  minimaxAux depth b player depth alpha beta ply st

/-- Embedding of `MAX_TT_SIZE` from `ai.rs`. -/
def MAX_TT_SIZE : Nat := 2000000

/-- Embedding of `TT_CLEANUP_THRESHOLD` from `ai.rs`. -/
def TT_CLEANUP_THRESHOLD : Nat := 1500000

/-- The key-collection loop of `cleanup_tt`: gather keys of entries with
`depth <= 2`, stopping once `to_remove.len() + target_size >= tt.len()`
(the accumulation order does not affect the removal set). -/
def collect_cleanup_keys (tt_len target_size : Nat) :
    List (TTKey × Entry) → List TTKey → List TTKey
  | [], acc => acc
  | kv :: rest, acc =>
    if kv.2.depth ≤ 2 then
      let acc2 := kv.1 :: acc
      if tt_len ≤ acc2.length + target_size then acc2
      else collect_cleanup_keys tt_len target_size rest acc2
    else collect_cleanup_keys tt_len target_size rest acc

/-- Embedding of `BitBoard::cleanup_tt` from `ai.rs` (the method reads no board state):
return unchanged unless the table exceeds `MAX_TT_SIZE`; otherwise remove the
collected shallow-entry keys. -/
def cleanup_tt (tt : TTMap) : TTMap :=
  if tt.length ≤ MAX_TT_SIZE then tt
  else
    let target_size := MAX_TT_SIZE * 3 / 4
    let to_remove := collect_cleanup_keys tt.length target_size tt []
    tt.filter (fun kv => !(to_remove.contains kv.1))

/-- The size-maintenance step at the top of `find_best_move_with_tt`
(`ai.rs` lines 232-235): call `cleanup_tt` only above the cleanup threshold. -/
def tt_size_maintenance (tt : TTMap) : TTMap :=
  if TT_CLEANUP_THRESHOLD < tt.length then cleanup_tt tt else tt

/-! ### Claims C1, C6, C9 -/

/-- A position in which White has no legal move, Black has one, and the game
is not over: White `{a8, g1}`, Black `{a7..a2, a1, h1}` (bits 0 and 62 white;
bits 8, 16, 24, 32, 40, 48, 56, 63 black). -/
def c1_board : BitBoard := ⟨0x8101010101010100, 0x4000000000000001⟩

/-- A fresh search state: empty table, zeroed heuristics. -/
def init_search_state : SearchState := ⟨[], PVTable.new, KillerMoves.new, HistoryTable.new⟩

/-- Counterexample to C1 as stated: on `c1_board`, White must pass and the
game is not over, yet the search result at depth 1 is not the negation of the
same-depth child search — the code recurses at `depth - 1`, so a pass does
consume a ply. -/
theorem pass_same_depth_counterexample :
    c1_board.get_legal_moves .White = 0
    ∧ c1_board.is_game_over = false
    ∧ c1_board.get_legal_moves .Black ≠ 0
    ∧ (minimax_with_tt_internal c1_board .White 1 (INT32_MIN + 1) (INT32_MAX - 1) 0
          init_search_state).1
      ≠ safe_neg ((minimax_with_tt_internal c1_board .Black 1
          (safe_neg (INT32_MAX - 1)) (safe_neg (INT32_MIN + 1)) (0 + 1)
          { init_search_state with pv := init_search_state.pv.setLen 0 0 }).1) := by
  decide

/-- C1 amended: at a pass node (no TT entry for the position, game not over,
side to move without a legal move), the search recurses into the opponent's
turn at `depth - 1` — a pass consumes a ply — with the window negated and
swapped, and returns the negated child score. -/
theorem pass_branch_spec (b : BitBoard) (player : Player) (depth : Nat)
    (alpha beta : Int) (ply : Nat) (st : SearchState)
    (hdepth : 0 < depth)
    (htt : tt_find st.tt (tt_key b player) = none)
    (hgo : b.is_game_over = false)
    (hlegal : b.get_legal_moves player = 0) :
    (minimax_with_tt_internal b player depth alpha beta ply st).1
      = safe_neg ((minimax_with_tt_internal b player.opponent (depth - 1)
          (safe_neg beta) (safe_neg alpha) (ply + 1)
          { st with pv := st.pv.setLen ply 0 }).1) := by
  obtain ⟨d, rfl⟩ : ∃ d, depth = d + 1 := ⟨depth - 1, by omega⟩
  rw [minimax_with_tt_internal, minimaxAux]
  simp only [htt, tt_probe, Nat.succ_ne_zero, hgo, hlegal, if_neg, if_pos,
    Nat.add_sub_cancel, Bool.false_eq_true, if_false, ite_false]
  rfl

/-- Witness for the amended C1 at `c1_board`, White to move, depth 1. -/
theorem pass_branch_spec_witness :
    (minimax_with_tt_internal c1_board .White 1 (INT32_MIN + 1) (INT32_MAX - 1) 0
        init_search_state).1
      = safe_neg ((minimax_with_tt_internal c1_board Player.White.opponent 0
          (safe_neg (INT32_MAX - 1)) (safe_neg (INT32_MIN + 1)) 1
          { init_search_state with pv := init_search_state.pv.setLen 0 0 }).1) :=
  pass_branch_spec c1_board .White 1 (INT32_MIN + 1) (INT32_MAX - 1) 0 init_search_state
    (by decide) rfl (by decide) (by decide)

/-- C6 amended: a stored entry with sufficient depth resolves the probe as the
code does — `Exact` returns, `LowerBound` returns on `score ≥ beta` and
otherwise raises `alpha` to the stored score, `UpperBound` returns on
`score ≤ alpha` and otherwise continues with the window unchanged (no bound
ever tightens `beta`); an `Exact` hit makes the search return the stored
score immediately. -/
theorem tt_probe_resolution (e : Entry) (depth : Nat) (alpha beta : Int)
    (hd : depth ≤ e.depth) :
    (e.flag = .Exact → tt_probe (some e) depth alpha beta = .ret e.score)
    ∧ (e.flag = .LowerBound → beta ≤ e.score →
        tt_probe (some e) depth alpha beta = .ret e.score)
    ∧ (e.flag = .LowerBound → e.score < beta →
        tt_probe (some e) depth alpha beta = .cont (max alpha e.score) beta)
    ∧ (e.flag = .UpperBound → e.score ≤ alpha →
        tt_probe (some e) depth alpha beta = .ret e.score)
    ∧ (e.flag = .UpperBound → alpha < e.score →
        tt_probe (some e) depth alpha beta = .cont alpha beta)
    ∧ (e.flag = .Exact →
        ∀ (b : BitBoard) (player : Player) (ply : Nat) (st : SearchState),
          tt_find st.tt (tt_key b player) = some e →
          (minimax_with_tt_internal b player depth alpha beta ply st).1 = e.score) := by
  refine ⟨?_, ?_, ?_, ?_, ?_, ?_⟩
  · intro hflag
    rw [tt_probe, if_pos hd, hflag]
  · intro hflag hscore
    rw [tt_probe, if_pos hd, hflag]
    simp only [ge_iff_le, hscore, if_pos]
  · intro hflag hscore
    rw [tt_probe, if_pos hd, hflag]
    simp only [ge_iff_le, if_neg (by omega : ¬beta ≤ e.score)]
  · intro hflag hscore
    rw [tt_probe, if_pos hd, hflag]
    simp only [hscore, if_pos]
  · intro hflag hscore
    rw [tt_probe, if_pos hd, hflag]
    simp only [if_neg (by omega : ¬e.score ≤ alpha)]
  · intro hflag b player ply st hfind
    have hprobe : tt_probe (some e) depth alpha beta = .ret e.score := by
      rw [tt_probe, if_pos hd, hflag]
    cases depth with
    | zero =>
      rw [minimax_with_tt_internal, minimaxAux]
      simp only [hfind, hprobe]
    | succ d =>
      rw [minimax_with_tt_internal, minimaxAux]
      simp only [hfind, hprobe]

/-- Witness for the amended C6: an `UpperBound` entry with score strictly
inside the window continues with the window unchanged. -/
theorem tt_probe_resolution_witness :
    tt_probe (some ⟨5, 3, NodeType.UpperBound, none⟩) 1 0 10 = .cont 0 10 :=
  (tt_probe_resolution ⟨5, 3, NodeType.UpperBound, none⟩ 1 0 10 (by decide)).2.2.2.2.1
    rfl (by decide)

/-- A table of 1,500,001 shallow entries: above the cleanup threshold, yet
below `MAX_TT_SIZE`, so `cleanup_tt` returns it unchanged. -/
def c9_table : TTMap := List.replicate 1500001 (((0, 0, 0) : TTKey), (⟨0, 0, .Exact, none⟩ : Entry))

/-- Counterexample to C9 as stated: this table passes the high-water mark
(`TT_CLEANUP_THRESHOLD = 1,500,000`) at the start of the call, yet the
maintenance step evicts nothing (all entries have depth 0) and the table does
not end below the target fraction `MAX_TT_SIZE * 3 / 4` of capacity. -/
theorem tt_maintenance_claim_counterexample :
    TT_CLEANUP_THRESHOLD < c9_table.length
    ∧ tt_size_maintenance c9_table = c9_table
    ∧ ¬((tt_size_maintenance c9_table).length < MAX_TT_SIZE * 3 / 4) := by
  have hlen : c9_table.length = 1500001 := by
    rw [c9_table, List.length_replicate]
  have hcl : cleanup_tt c9_table = c9_table := by
    rw [cleanup_tt, if_pos (by rw [hlen]; norm_num [MAX_TT_SIZE])]
  have hm : tt_size_maintenance c9_table = c9_table := by
    rw [tt_size_maintenance, if_pos (by rw [hlen]; norm_num [TT_CLEANUP_THRESHOLD]), hcl]
  refine ⟨by rw [hlen]; norm_num [TT_CLEANUP_THRESHOLD], hm, ?_⟩
  rw [hm, hlen]
  norm_num [MAX_TT_SIZE]

lemma collect_cleanup_keys_mem (n t : Nat) :
    ∀ (l : List (TTKey × Entry)) (acc : List TTKey) (k : TTKey),
      k ∈ collect_cleanup_keys n t l acc →
      k ∈ acc ∨ ∃ e, (k, e) ∈ l ∧ e.depth ≤ 2 := by
  intro l
  induction l with
  | nil =>
    intro acc k h
    rw [collect_cleanup_keys] at h
    exact Or.inl h
  | cons kv rest ih =>
    intro acc k h
    rw [collect_cleanup_keys] at h
    by_cases hdep : kv.2.depth ≤ 2
    · rw [if_pos hdep] at h
      by_cases hstop : n ≤ (kv.1 :: acc).length + t
      · rw [if_pos hstop] at h
        rcases List.mem_cons.mp h with h2 | h2
        · subst h2
          exact Or.inr ⟨kv.2, List.mem_cons.mpr (Or.inl rfl), hdep⟩
        · exact Or.inl h2
      · rw [if_neg hstop] at h
        rcases ih (kv.1 :: acc) k h with h2 | ⟨e, he, hde⟩
        · rcases List.mem_cons.mp h2 with h3 | h3
          · subst h3
            exact Or.inr ⟨kv.2, List.mem_cons.mpr (Or.inl rfl), hdep⟩
          · exact Or.inl h3
        · exact Or.inr ⟨e, List.mem_cons_of_mem kv he, hde⟩
    · rw [if_neg hdep] at h
      rcases ih acc k h with h2 | ⟨e, he, hde⟩
      · exact Or.inl h2
      · exact Or.inr ⟨e, List.mem_cons_of_mem kv he, hde⟩

lemma nodup_keys_unique (l : List (TTKey × Entry))
    (h : (l.map Prod.fst).Nodup) (k : TTKey) (a b : Entry)
    (ha : (k, a) ∈ l) (hb : (k, b) ∈ l) : a = b := by
  induction l with
  | nil => simp at ha
  | cons kv rest ih =>
    rw [List.map_cons, List.nodup_cons] at h
    rcases List.mem_cons.mp ha with ha2 | ha2 <;> rcases List.mem_cons.mp hb with hb2 | hb2
    · have h1 : a = kv.2 := congrArg Prod.snd ha2
      have h2 : b = kv.2 := congrArg Prod.snd hb2
      rw [h1, h2]
    · exfalso
      apply h.1
      have hk : k = kv.1 := congrArg Prod.fst ha2
      rw [← hk]
      exact List.mem_map_of_mem Prod.fst hb2
    · exfalso
      apply h.1
      have hk : k = kv.1 := congrArg Prod.fst hb2
      rw [← hk]
      exact List.mem_map_of_mem Prod.fst ha2
    · exact ih h.2 ha2 hb2

/-- C9 amended: `cleanup_tt` leaves any table of at most `MAX_TT_SIZE` entries
untouched (in particular everything between the 1.5M threshold and 2M); when
it does evict, it only removes entries, and (with unique keys, as in a hash
map) only entries of stored depth at most 2 — deeper entries always survive,
so the table need not end below the target size. -/
theorem cleanup_tt_behavior (tt : TTMap) :
    (tt.length ≤ MAX_TT_SIZE → cleanup_tt tt = tt)
    ∧ (∀ kv ∈ cleanup_tt tt, kv ∈ tt)
    ∧ ((tt.map Prod.fst).Nodup →
        ∀ kv ∈ tt, 2 < kv.2.depth → kv ∈ cleanup_tt tt) := by
  refine ⟨fun h => by rw [cleanup_tt, if_pos h], ?_, ?_⟩
  · intro kv h
    rw [cleanup_tt] at h
    by_cases hlen : tt.length ≤ MAX_TT_SIZE
    · rw [if_pos hlen] at h
      exact h
    · rw [if_neg hlen] at h
      exact List.mem_of_mem_filter h
  · intro hnodup kv hmem hdepth
    rw [cleanup_tt]
    by_cases hlen : tt.length ≤ MAX_TT_SIZE
    · rw [if_pos hlen]
      exact hmem
    · rw [if_neg hlen]
      refine List.mem_filter.mpr ⟨hmem, ?_⟩
      rw [Bool.not_eq_eq_eq_not, Bool.not_true]
      by_contra hcon
      have hcontains : (collect_cleanup_keys tt.length (MAX_TT_SIZE * 3 / 4) tt []).contains
          kv.1 = true := by
        cases hc : (collect_cleanup_keys tt.length (MAX_TT_SIZE * 3 / 4) tt []).contains kv.1
        · exact absurd hc hcon
        · rfl
      have hmem2 : kv.1 ∈ collect_cleanup_keys tt.length (MAX_TT_SIZE * 3 / 4) tt [] := by
        rw [List.contains] at hcontains
        exact List.elem_iff.mp hcontains
      rcases collect_cleanup_keys_mem _ _ tt [] kv.1 hmem2 with h2 | ⟨e, he, hde⟩
      · simp at h2
      · have heq : e = kv.2 := nodup_keys_unique tt hnodup kv.1 e kv.2 he hmem
        rw [heq] at hde
        omega

/-- Witness for the amended C9 on a one-entry table with a deep entry. -/
theorem cleanup_tt_behavior_witness :
    cleanup_tt [(((1, 2, 3) : TTKey), (⟨5, 7, .Exact, none⟩ : Entry))]
      = [(((1, 2, 3) : TTKey), (⟨5, 7, .Exact, none⟩ : Entry))] :=
  (cleanup_tt_behavior _).1 (by norm_num [MAX_TT_SIZE])

end BitOthello
